import Mathlib

/-!
Shallow embedding of `src/services/notes.js` (trilium note/branch lifecycle
engine) and verification of the specification's claims about it.

Modelling conventions:
* The SQL store is a `State` record holding the rows of the `notes`,
  `branches`, `note_revisions` and `note_images` tables as lists.
* JavaScript values that can be a boolean, a number or `undefined`
  (the `isProtected` fields, which the source assigns both `0` and booleans)
  are modelled by `JsVal`; strict equality `===` is structural equality.
* JavaScript strings that can be `undefined` (title/content fields that
  `updateNote` copies verbatim from the updates object) are `Option String`,
  `none` standing for `undefined`.
* `isDeleted` flags are modelled at the store level as `Bool`: the source
  writes `0`/`1`/`true` and the persistence layer stores booleans as the
  integers it compares against (`isDeleted = 0`, `=== 1`).
* Timestamps are integers (milliseconds); the spec requires the date-string
  encoding to compare lexically exactly as the instants compare
  chronologically, so `utils.dateStr`/`utils.parseDateTime` are the identity.
* Asynchronous storage calls become explicit state passing; a thrown
  exception (unknown target, lookup of a missing row's field) is `none` in
  an `Option` result.  The unbounded recursions (`deleteNote`,
  `protectNoteRecursively`) take explicit fuel and return `none` when it
  runs out.
* Every persistence call (`save`, `updateEntity`, `sql.execute`) increments
  a `writes` counter; `sync_table.addNoteReorderingSync` appends to a
  `reorderLog`.
-/

/-- A JavaScript primitive value as far as the `isProtected` fields are
concerned: a boolean, a number, or `undefined`.  Strict (in)equality `===`
between these values is structural (in)equality. -/
inductive JsVal : Type
  | b (x : Bool)
  | n (x : Int)
  | undef
deriving DecidableEq, Repr

/-- Row of the `notes` table.  `labels` inlines the external label store's
name→value pairs for this note (`labels.getLabelMap`). -/
structure Note where
  noteId : String
  title : Option String
  content : Option String
  type : String
  mime : String
  isProtected : JsVal
  isDeleted : Bool
  dateCreated : Int
  dateModified : Int
  labels : List (String × String)
deriving DecidableEq, Repr

/-- Row of the `branches` table: a placement of a note under a parent. -/
structure Branch where
  branchId : String
  noteId : String
  parentNoteId : String
  notePosition : Int
  isExpanded : Bool
  isDeleted : Bool
deriving DecidableEq, Repr

/-- Row of the `note_revisions` table: a historical snapshot. -/
structure NoteRevision where
  noteRevisionId : String
  noteId : String
  title : Option String
  content : Option String
  isProtected : JsVal
  dateModifiedFrom : Int
  dateModifiedTo : Int
deriving DecidableEq, Repr

/-- Row of the `note_images` table: a tracked embedded-image reference. -/
structure NoteImage where
  noteImageId : String
  noteId : String
  imageId : String
  isDeleted : Bool
deriving DecidableEq, Repr

/-- The persistent store, plus the id generator (`utils.new*Id`), the
reorder-notification log (`sync_table.addNoteReorderingSync`) and a counter
of persistence calls. -/
structure State where
  notes : List Note
  branches : List Branch
  revisions : List NoteRevision
  noteImages : List NoteImage
  reorderLog : List String
  nextId : Nat
  writes : Nat
deriving DecidableEq, Repr

namespace State

/-- `repository.getNote(noteId)`: load the note row with the given id. -/
def getNote (st : State) (nid : String) : Option Note :=
  st.notes.find? (fun n => n.noteId = nid)

/-- `SELECT ... FROM branches WHERE branchId = ?`: load a branch row. -/
def findBranch (st : State) (bid : String) : Option Branch :=
  st.branches.find? (fun b => b.branchId = bid)

/-- `utils.new*Id()`: a fresh opaque identifier from the generator state. -/
def freshId (st : State) : String :=
  "gen" ++ toString st.nextId

end State

/-! ## Position Allocator (`getNewNotePosition`) -/

/-- The `notePosition` values selected by
`SELECT ... FROM branches WHERE parentNoteId = ? AND isDeleted = 0`. -/
def siblingPositions (st : State) (parentNoteId : String) : List Int :=
  (st.branches.filter
    (fun b => b.parentNoteId = parentNoteId ∧ b.isDeleted = false)).map
    (·.notePosition)

/-- SQL `MAX(...)` over a selected column: `NULL` (`none`) on an empty
selection, otherwise the greatest value. -/
def sqlMax : List Int → Option Int
  | [] => none
  | x :: xs => some (xs.foldl max x)

/-- The row update of the `after` intent:
`UPDATE branches SET notePosition = notePosition + 1
 WHERE parentNoteId = ? AND notePosition > ? AND isDeleted = 0`. -/
def bumpAfter (parentNoteId : String) (p : Int) (b : Branch) : Branch :=
  if b.parentNoteId = parentNoteId ∧ b.isDeleted = false ∧ p < b.notePosition
  then { b with notePosition := b.notePosition + 1 }
  else b

/-- `getNewNotePosition(parentNoteId, noteOpts)`.  Returns the allocated
position together with the (possibly shifted) state; `none` models the
thrown error on an unknown target and the crash when the `after` reference
branch row is absent. -/
def getNewNotePosition (st : State) (parentNoteId : String)
    (target : String) (targetBranchId : String) : Option (Int × State) :=
  if target = "into" then
    let maxNotePos := sqlMax (siblingPositions st parentNoteId)
    some (match maxNotePos with
          | none => 0
          | some m => m + 1, st)
  else if target = "after" then
    match st.findBranch targetBranchId with
    | none => none
    | some afterNote =>
      let p := afterNote.notePosition
      let st1 := { st with branches := st.branches.map (bumpAfter parentNoteId p),
                           writes := st.writes + 1 }
      let st2 := { st1 with reorderLog := st1.reorderLog ++ [parentNoteId],
                            writes := st1.writes + 1 }
      some (p + 1, st2)
  else none

/-! ### Facts about `sqlMax` -/

theorem le_foldl_max_self : ∀ (xs : List Int) (a : Int), a ≤ xs.foldl max a := by
  intro xs
  induction xs with
  | nil => intro a; simp
  | cons y ys ih =>
    intro a
    calc a ≤ max a y := le_max_left a y
    _ ≤ ys.foldl max (max a y) := ih (max a y)
    _ = (y :: ys).foldl max a := by simp [List.foldl]

theorem foldl_max_mem : ∀ (xs : List Int) (a : Int), xs.foldl max a ∈ a :: xs := by
  intro xs
  induction xs with
  | nil => intro a; simp [List.foldl]
  | cons y ys ih =>
    intro a
    simp only [List.foldl]
    rcases max_choice a y with hm | hm
    · rw [hm]
      rcases List.mem_cons.mp (ih a) with h' | h' <;> simp [h']
    · rw [hm]
      rcases List.mem_cons.mp (ih y) with h' | h' <;> simp [h']

theorem le_foldl_max : ∀ (xs : List Int) (a q : Int), q ∈ a :: xs → q ≤ xs.foldl max a := by
  intro xs
  induction xs with
  | nil =>
    intro a q hq
    simp at hq
    simp [hq]
  | cons y ys ih =>
    intro a q hq
    simp only [List.foldl]
    rcases List.mem_cons.mp hq with h | h
    · subst h
      calc q ≤ max q y := le_max_left q y
      _ ≤ ys.foldl max (max q y) := le_foldl_max_self ys (max q y)
    rcases List.mem_cons.mp h with h' | h'
    · subst h'
      have : q ≤ max a q := le_max_right a q
      exact le_trans this (le_foldl_max_self ys (max a q))
    · exact ih (max a y) q (List.mem_cons_of_mem _ h')

theorem sqlMax_mem (l : List Int) (m : Int) (h : sqlMax l = some m) : m ∈ l := by
  match l with
  | [] => simp [sqlMax] at h
  | x :: xs =>
    simp only [sqlMax, Option.some.injEq] at h
    subst h
    exact foldl_max_mem xs x

theorem sqlMax_ge (l : List Int) (m : Int) (h : sqlMax l = some m) :
    ∀ q ∈ l, q ≤ m := by
  match l with
  | [] => simp [sqlMax] at h
  | x :: xs =>
    simp only [sqlMax, Option.some.injEq] at h
    subst h
    intro q hq
    exact le_foldl_max xs x q hq

theorem sqlMax_eq_none (l : List Int) (h : sqlMax l = none) : l = [] := by
  match l with
  | [] => rfl
  | x :: xs => simp [sqlMax] at h

/-! ### Claims C1 and C2: the Position Allocator -/

theorem forall₂_map_self {α : Type} (R : α → α → Prop) (f : α → α) (l : List α)
    (h : ∀ a ∈ l, R a (f a)) : List.Forall₂ R l (l.map f) := by
  induction l with
  | nil => simp
  | cons x xs ih =>
    simp only [List.map]
    exact List.Forall₂.cons (h x (by simp)) (ih (fun a ha => h a (by simp [ha])))

/-- C1: for every parent note, allocating a position with the "into" intent
returns `1 + max(notePosition)` over that parent's non-deleted branches, `0`
when there are none, and the returned value is strictly greater than every
existing non-deleted sibling's position (the state is left unchanged). -/
theorem getNewNotePosition_into (st : State) (parentNoteId targetBranchId : String) :
    ∃ pos : Int,
      getNewNotePosition st parentNoteId "into" targetBranchId = some (pos, st) ∧
      (siblingPositions st parentNoteId = [] → pos = 0) ∧
      (siblingPositions st parentNoteId ≠ [] →
        ∃ m ∈ siblingPositions st parentNoteId,
          (∀ q ∈ siblingPositions st parentNoteId, q ≤ m) ∧ pos = m + 1) ∧
      (∀ q ∈ siblingPositions st parentNoteId, q < pos) := by
  cases hsm : sqlMax (siblingPositions st parentNoteId) with
  | none =>
    refine ⟨0, ?_, fun _ => rfl, ?_, ?_⟩
    · simp [getNewNotePosition, hsm]
    · intro hne; exact absurd (sqlMax_eq_none _ hsm) hne
    · intro q hq; rw [sqlMax_eq_none _ hsm] at hq; simp at hq
  | some m =>
    refine ⟨m + 1, ?_, ?_, ?_, ?_⟩
    · simp [getNewNotePosition, hsm]
    · intro h; rw [h] at hsm; simp [sqlMax] at hsm
    · intro _; exact ⟨m, sqlMax_mem _ _ hsm, sqlMax_ge _ _ hsm, rfl⟩
    · intro q hq; exact lt_of_le_of_lt (sqlMax_ge _ _ hsm q hq) (by omega)

/-- How the "after" intent at reference position `p` must relate an old
branch row to its new version, in the words of the claim: a non-deleted
branch of the parent with position `> p` is increased by exactly one with
every other field kept; a branch with position `≤ p`, a deleted branch and
a branch of another parent are unchanged. -/
def afterShiftRel (parentNoteId : String) (p : Int) (old new : Branch) : Prop :=
  (old.parentNoteId = parentNoteId → old.isDeleted = false →
    p < old.notePosition →
      new.branchId = old.branchId ∧ new.noteId = old.noteId ∧
      new.parentNoteId = old.parentNoteId ∧
      new.notePosition = old.notePosition + 1 ∧
      new.isExpanded = old.isExpanded ∧ new.isDeleted = old.isDeleted) ∧
  (old.notePosition ≤ p → new = old) ∧
  (old.isDeleted = true → new = old) ∧
  (old.parentNoteId ≠ parentNoteId → new = old)

/-- C2: allocating with the "after" intent relative to an existing branch at
position `p` returns `p + 1`, bumps every non-deleted branch of the parent
with position `> p` by exactly one (all other fields kept), leaves every
branch with position `≤ p`, every deleted branch and every branch of another
parent unchanged, and appends exactly one children-reordered notification
for the parent. -/
theorem getNewNotePosition_after (st : State) (parentNoteId targetBranchId : String)
    (afterNote : Branch) (h : st.findBranch targetBranchId = some afterNote) :
    ∃ st' : State,
      getNewNotePosition st parentNoteId "after" targetBranchId
        = some (afterNote.notePosition + 1, st') ∧
      List.Forall₂ (afterShiftRel parentNoteId afterNote.notePosition)
        st.branches st'.branches ∧
      st'.reorderLog = st.reorderLog ++ [parentNoteId] := by
  refine Exists.intro
    ({ st with
        branches := st.branches.map (bumpAfter parentNoteId afterNote.notePosition),
        reorderLog := st.reorderLog ++ [parentNoteId],
        writes := st.writes + 1 + 1 }) ⟨?_, ?_, ?_⟩
  · simp [getNewNotePosition, h]
  · apply forall₂_map_self
    intro b _
    unfold afterShiftRel
    by_cases hc : b.parentNoteId = parentNoteId ∧ b.isDeleted = false ∧
        afterNote.notePosition < b.notePosition
    · obtain ⟨h1, h2, h3⟩ := hc
      refine ⟨fun _ _ _ => ?_, fun hle => absurd h3 (not_lt.mpr hle),
        fun hd => absurd hd (by simp [h2]), fun hp => absurd h1 hp⟩
      simp [bumpAfter, h1, h2, h3]
    · have hb : bumpAfter parentNoteId afterNote.notePosition b = b := by
        simp only [bumpAfter, if_neg hc]
      rw [hb]
      exact ⟨fun h1 h2 h3 => absurd ⟨h1, h2, h3⟩ hc,
        fun _ => rfl, fun _ => rfl, fun _ => rfl⟩
  · rfl

/-- Concrete branch for the C2 witness: the reference sibling at position 1. -/
def exBranch1 : Branch :=
  { branchId := "b1", noteId := "n1", parentNoteId := "p",
    notePosition := 1, isExpanded := false, isDeleted := false }

/-- Concrete store for the C2 witness: three non-deleted siblings of parent
`p` at positions 0, 1, 2. -/
def exState2 : State :=
  { notes := [],
    branches := [
      { branchId := "b0", noteId := "n0", parentNoteId := "p",
        notePosition := 0, isExpanded := false, isDeleted := false },
      exBranch1,
      { branchId := "b2", noteId := "n2", parentNoteId := "p",
        notePosition := 2, isExpanded := false, isDeleted := false }],
    revisions := [], noteImages := [], reorderLog := [], nextId := 0, writes := 0 }

/-- Witness for C2: the hypothesis holds at a concrete store and the claim
follows there by the theorem. -/
theorem getNewNotePosition_after_witness :
    exState2.findBranch "b1" = some exBranch1 ∧
    (∃ st' : State,
      getNewNotePosition exState2 "p" "after" "b1"
        = some (exBranch1.notePosition + 1, st') ∧
      List.Forall₂ (afterShiftRel "p" exBranch1.notePosition)
        exState2.branches st'.branches ∧
      st'.reorderLog = exState2.reorderLog ++ ["p"]) :=
  ⟨by decide, getNewNotePosition_after exState2 "p" "b1" exBranch1 (by decide)⟩

/-! ## Revision Snapshot Policy (`saveNoteRevision`) -/

/-- Modelled from the spec: the label store's `getLabelMap` (`labels.js`, not
under `src/`) returns the note's name → value label mapping; looking up one
name yields its value or `undefined`.  The source checks
`labelsMap.disable_versioning !== 'true'`. -/
def getLabel (note : Note) (name : String) : Option String :=
  (note.labels.find? (fun l => l.1 = name)).map (·.2)

/-- The condition under which `saveNoteRevision` creates a revision, exactly
as the source tests it: not a `file` note, no `disable_versioning = 'true'`
label, no revision row with `dateModifiedTo >= revisionCutoff`
(`revisionCutoff = now - interval seconds`), and the note at least the
configured interval old. -/
def revisionAllowed (st : State) (note : Note) (now intervalSec : Int) : Prop :=
  note.type ≠ "file" ∧
  getLabel note "disable_versioning" ≠ some "true" ∧
  (st.revisions.any
    (fun r => r.noteId = note.noteId ∧ now - intervalSec * 1000 ≤ r.dateModifiedTo)) = false ∧
  intervalSec * 1000 ≤ now - note.dateCreated

instance (st : State) (note : Note) (now intervalSec : Int) :
    Decidable (revisionAllowed st note now intervalSec) := by
  unfold revisionAllowed; infer_instance

/-- `saveNoteRevision(note)`: capture a pre-update snapshot unless a skip
condition holds.  `note` is the entity loaded before any update is applied;
`now` is the clock reading and `intervalSec` the configured
`note_revision_snapshot_time_interval` (seconds). -/
def saveNoteRevision (st : State) (note : Note) (now intervalSec : Int) : State :=
  if revisionAllowed st note now intervalSec then
    { st with
      revisions := st.revisions ++ [{
        noteRevisionId := st.freshId,
        noteId := note.noteId,
        title := note.title,
        content := note.content,
        isProtected := JsVal.n 0,
        dateModifiedFrom := note.dateModified,
        dateModifiedTo := now }],
      nextId := st.nextId + 1,
      writes := st.writes + 1 }
  else st

/-- The skip conditions in the words of the claim: the note's type is
`file`, or it carries a `disable_versioning` label with value `"true"`, or a
revision of the note already has `dateModifiedTo` at or after the cutoff
`now - interval`, or the note's age since `dateCreated` is shorter than the
configured interval. -/
def revisionSkip (st : State) (note : Note) (now intervalSec : Int) : Prop :=
  note.type = "file" ∨
  getLabel note "disable_versioning" = some "true" ∨
  (∃ r ∈ st.revisions, r.noteId = note.noteId ∧ now - intervalSec * 1000 ≤ r.dateModifiedTo) ∨
  now - note.dateCreated < intervalSec * 1000

theorem revisionAllowed_iff_not_skip (st : State) (note : Note) (now intervalSec : Int) :
    revisionAllowed st note now intervalSec ↔ ¬ revisionSkip st note now intervalSec := by
  unfold revisionAllowed revisionSkip
  rw [not_or, not_or, not_or]
  have hany : (st.revisions.any
      (fun r => r.noteId = note.noteId ∧ now - intervalSec * 1000 ≤ r.dateModifiedTo)) = false ↔
      ¬ (∃ r ∈ st.revisions, r.noteId = note.noteId ∧ now - intervalSec * 1000 ≤ r.dateModifiedTo) := by
    rw [Bool.eq_false_iff]
    simp [List.any_eq_true]
  rw [hany]
  constructor
  · rintro ⟨h1, h2, h3, h4⟩
    exact ⟨h1, h2, h3, not_lt.mpr h4⟩
  · rintro ⟨h1, h2, h3, h4⟩
    exact ⟨h1, h2, h3, not_lt.mp h4⟩

/-- C3: the Revision Snapshot Policy creates no revision when a skip
condition holds, and otherwise creates exactly one revision copying the
note's pre-update title and content, with `dateModifiedFrom` the note's
`dateModified`, `dateModifiedTo` the current time, and `isProtected`
initially `0`. -/
theorem saveNoteRevision_spec (st : State) (note : Note) (now intervalSec : Int) :
    (revisionSkip st note now intervalSec →
      saveNoteRevision st note now intervalSec = st) ∧
    (¬ revisionSkip st note now intervalSec →
      ∃ rev : NoteRevision,
        (saveNoteRevision st note now intervalSec).revisions = st.revisions ++ [rev] ∧
        rev.noteId = note.noteId ∧
        rev.title = note.title ∧
        rev.content = note.content ∧
        rev.isProtected = JsVal.n 0 ∧
        rev.dateModifiedFrom = note.dateModified ∧
        rev.dateModifiedTo = now) := by
  constructor
  · intro hskip
    unfold saveNoteRevision
    rw [if_neg]
    rw [revisionAllowed_iff_not_skip]
    exact not_not_intro hskip
  · intro hns
    unfold saveNoteRevision
    rw [if_pos ((revisionAllowed_iff_not_skip st note now intervalSec).mpr hns)]
    exact ⟨_, rfl, rfl, rfl, rfl, rfl, rfl, rfl⟩

/-! ## Image Reference Tracker (`saveNoteImages`) -/

/-- The regex character class `[a-zA-Z0-9]`. -/
def isAlnum (c : Char) : Bool :=
  decide (('a' ≤ c ∧ c ≤ 'z') ∨ ('A' ≤ c ∧ c ≤ 'Z') ∨ ('0' ≤ c ∧ c ≤ '9'))

/-- The fixed text the regex `/src="\/api\/images\/([a-zA-Z0-9]+)\//g`
requires before the captured identifier. -/
def imgMarker : List Char := "src=\"/api/images/".data

/-- One attempt of the image regex anchored at the head of `s`: the marker,
then a maximal non-empty alphanumeric run (the capture), then `/`.  On
success, returns the captured identifier and the text after the full match
(where `re.lastIndex` points). -/
def matchImageAt (s : List Char) : Option (String × List Char) :=
  if imgMarker.isPrefixOf s then
    let rest := s.drop imgMarker.length
    let run := rest.takeWhile isAlnum
    if run = [] then none
    else
      match rest.dropWhile isAlnum with
      | '/' :: rest2 => some (String.mk run, rest2)
      | _ => none
  else none

/-- The `while (match = re.exec(note.content))` loop: captured identifiers
in text order, each search resuming after the previous full match.  The
fuel is the length of the text: every step consumes at least one character,
so a top-level call with `fuel = s.length` never exhausts it. -/
def scanImageIds : Nat → List Char → List String
  | 0, _ => []
  | _ + 1, [] => []
  | fuel + 1, c :: cs =>
    match matchImageAt (c :: cs) with
    | some (iid, rest) => iid :: scanImageIds fuel rest
    | none => scanImageIds fuel cs

/-- The identifiers the tracker finds in a note's content
(`foundImageIds`).  A JavaScript `undefined` content is coerced by
`re.exec` to the string `"undefined"`. -/
def foundImageIds (note : Note) : List String :=
  let text := (match note.content with
               | some s => s
               | none => "undefined").data
  scanImageIds text.length text

/-- Modelled from the spec: the entity accessor `note.getNoteImages()` is
not under `src/`; per the spec's NoteImage invariant and idempotence
property (§3, §4.4) it returns the note's tracked image records that are
not deleted. -/
def getNoteImages (st : State) (nid : String) : List NoteImage :=
  st.noteImages.filter (fun ni => ni.noteId = nid ∧ ni.isDeleted = false)

/-- One iteration of the scan loop's body: if the pre-loop snapshot
`existing` has no record for the captured identifier, persist a fresh
non-deleted record (`repository.updateEntity(new NoteImage(...))`). -/
def addImageIfNew (nid : String) (existing : List NoteImage)
    (st : State) (iid : String) : State :=
  if existing.any (fun ni => ni.imageId = iid) then st
  else
    { st with
      noteImages := st.noteImages ++ [{
        noteImageId := st.freshId, noteId := nid,
        imageId := iid, isDeleted := false }],
      nextId := st.nextId + 1,
      writes := st.writes + 1 }

/-- The `unusedNoteImages` pass: every record of `existing` (the non-deleted
records of this note) whose identifier was not found is marked deleted and
persisted.  The per-record loop is expressed as one traversal of the table:
exactly the rows that are non-deleted, belong to the note and have an
unfound identifier are rewritten — newly inserted rows all carry found
identifiers, so they are untouched, as in the source. -/
def markUnusedDeleted (nid : String) (found : List String) (st : State) : State :=
  { st with
    noteImages := st.noteImages.map (fun ni =>
      if ni.noteId = nid ∧ ni.isDeleted = false ∧ ni.imageId ∉ found
      then { ni with isDeleted := true } else ni),
    writes := st.writes + (st.noteImages.filter (fun ni =>
      ni.noteId = nid ∧ ni.isDeleted = false ∧ ni.imageId ∉ found)).length }

/-- `saveNoteImages(note)`: reconcile the tracked image records of a text
note against the identifiers found in its content. -/
def saveNoteImages (st : State) (nid : String) : State :=
  match st.getNote nid with
  | none => st
  | some note =>
    if note.type ≠ "text" then st
    else
      let existing := getNoteImages st nid
      let found := foundImageIds note
      let st1 := found.foldl (addImageIfNew nid existing) st
      markUnusedDeleted nid found st1

/-! ## Protection Propagator -/

/-- `protectNoteRevisions(note)`: synchronize every revision row of the note
with the note's protection flag; a row is written only when its flag
differs (`note.isProtected !== revision.isProtected`). -/
def protectNoteRevisions (st : State) (nid : String) : State :=
  match st.getNote nid with
  | none => st
  | some note =>
    { st with
      revisions := st.revisions.map (fun r =>
        if r.noteId = nid ∧ note.isProtected ≠ r.isProtected
        then { r with isProtected := note.isProtected } else r),
      writes := st.writes + (st.revisions.filter (fun r =>
        r.noteId = nid ∧ note.isProtected ≠ r.isProtected)).length }

/-- The persistence of `note.isProtected = protect;
repository.updateEntity(note)`. -/
def setNoteProtected (st : State) (nid : String) (v : JsVal) : State :=
  { st with
    notes := st.notes.map (fun n =>
      if n.noteId = nid then { n with isProtected := v } else n),
    writes := st.writes + 1 }

/-- `protectNote(note, protect)`: update the note's flag when it differs
(`protect !== note.isProtected`), then synchronize its revisions. -/
def protectNote (st : State) (nid : String) (protect : Bool) : State :=
  match st.getNote nid with
  | none => st
  | some note =>
    let st1 :=
      if JsVal.b protect ≠ note.isProtected
      then setNoteProtected st nid (JsVal.b protect)
      else st
    protectNoteRevisions st1 nid

/-- Modelled from the spec: `note.getChildNotes()` (entity layer, not under
`src/`) returns the child notes determined by non-deleted branches whose
parent is this note (§4.5); here, their note ids in table order. -/
def childNoteIds (st : State) (nid : String) : List String :=
  (st.branches.filter
    (fun b => b.parentNoteId = nid ∧ b.isDeleted = false)).map (·.noteId)

/-- The recursion of `protectNoteRecursively` over a worklist of note ids:
protect the head note, recurse into its children, then continue with the
rest.  Fuel is consumed at every recursive call; `none` models
non-termination within the given budget. -/
def protectList : Nat → State → List String → Bool → Option State
  | _, st, [], _ => some st
  | 0, _, _ :: _, _ => none
  | fuel + 1, st, nid :: rest, protect =>
    let st1 := protectNote st nid protect
    match protectList fuel st1 (childNoteIds st1 nid) protect with
    | none => none
    | some st2 => protectList fuel st2 rest protect

/-- `protectNoteRecursively(note, protect)`. -/
def protectNoteRecursively (fuel : Nat) (st : State) (nid : String)
    (protect : Bool) : Option State :=
  protectList fuel st [nid] protect

/-! ## Note update (`updateNote`) -/

/-- The `noteUpdates` argument of `updateNote`: the fields the function
copies onto the note.  `none` is a JavaScript `undefined` (an absent
property). -/
structure NoteUpdates where
  title : Option String
  content : Option String
  isProtected : JsVal
deriving DecidableEq, Repr

/-- The persistence of `note.title = ...; note.content = ...;
note.isProtected = ...; repository.updateEntity(note)`. -/
def setNoteFields (st : State) (nid : String) (title content : Option String)
    (prot : JsVal) : State :=
  { st with
    notes := st.notes.map (fun n =>
      if n.noteId = nid
      then { n with title := title, content := content, isProtected := prot }
      else n),
    writes := st.writes + 1 }

/-- `updateNote(noteId, noteUpdates)`; `none` models the crash when the
note row is absent. -/
def updateNote (st : State) (nid : String) (upd : NoteUpdates)
    (now intervalSec : Int) : Option State :=
  match st.getNote nid with
  | none => none
  | some note =>
    let upd1 := if note.type = "file" then { upd with content := note.content } else upd
    let st1 := saveNoteRevision st note now intervalSec
    let st2 := setNoteFields st1 nid upd1.title upd1.content upd1.isProtected
    let st3 := saveNoteImages st2 nid
    some (protectNoteRevisions st3 nid)

/-! ## Deletion Cascade (`deleteNote`) -/

/-- Modelled from the spec: `note.getBranches()` (entity layer, not under
`src/`) returns the note's non-deleted branches (§6: "get non-deleted
branches"). -/
def noteBranches (st : State) (nid : String) : List Branch :=
  st.branches.filter (fun b => b.noteId = nid ∧ b.isDeleted = false)

/-- Modelled from the spec: `note.getChildBranches()` (entity layer, not
under `src/`) returns the non-deleted branches whose parent is this note
(§4.6); here, their branch ids in table order. -/
def childBranchIds (st : State) (nid : String) : List String :=
  (st.branches.filter
    (fun b => b.parentNoteId = nid ∧ b.isDeleted = false)).map (·.branchId)

/-- `branch.isDeleted = true; branch.save()`. -/
def markBranchDeleted (st : State) (bid : String) : State :=
  { st with
    branches := st.branches.map (fun b =>
      if b.branchId = bid then { b with isDeleted := true } else b),
    writes := st.writes + 1 }

/-- `note.isDeleted = true; note.save()`. -/
def markNoteDeleted (st : State) (nid : String) : State :=
  { st with
    notes := st.notes.map (fun n =>
      if n.noteId = nid then { n with isDeleted := true } else n),
    writes := st.writes + 1 }

/-- The recursion of `deleteNote` over a worklist of branch ids: no-op when
the branch is absent or already deleted; otherwise mark it deleted, and if
its note has no non-deleted branch left, mark the note deleted and recurse
into the note's child branches before continuing with the rest.  Each
recursive call reads the then-current store, as the entity loads do.  Fuel
is consumed at every recursive call; `none` models non-termination within
the given budget. -/
def deleteBranches : Nat → State → List String → Option State
  | _, st, [] => some st
  | 0, _, _ :: _ => none
  | fuel + 1, st, bid :: rest =>
    match st.findBranch bid with
    | none => deleteBranches fuel st rest
    | some branch =>
      if branch.isDeleted then deleteBranches fuel st rest
      else
        let st1 := markBranchDeleted st bid
        if noteBranches st1 branch.noteId = [] then
          let st2 := markNoteDeleted st1 branch.noteId
          match deleteBranches fuel st2 (childBranchIds st2 branch.noteId) with
          | none => none
          | some st3 => deleteBranches fuel st3 rest
        else deleteBranches fuel st1 rest

/-- `deleteNote(branch)`.  The guard (`!branch || branch.isDeleted === 1`)
does not consume fuel. -/
def deleteNote (fuel : Nat) (st : State) (bid : String) : Option State :=
  match st.findBranch bid with
  | none => some st
  | some branch =>
    if branch.isDeleted then some st
    else deleteBranches (fuel + 1) st [bid]

/-! ### Preservation lemmas for the `notes` table -/

theorem notes_saveNoteRevision (st : State) (note : Note) (now intervalSec : Int) :
    (saveNoteRevision st note now intervalSec).notes = st.notes := by
  unfold saveNoteRevision; split <;> rfl

theorem notes_addImageIfNew (nid : String) (existing : List NoteImage)
    (st : State) (iid : String) :
    (addImageIfNew nid existing st iid).notes = st.notes := by
  unfold addImageIfNew; split <;> rfl

theorem notes_foldl_addImageIfNew (nid : String) (existing : List NoteImage) :
    ∀ (l : List String) (st : State),
      (l.foldl (addImageIfNew nid existing) st).notes = st.notes := by
  intro l
  induction l with
  | nil => intro st; rfl
  | cons x xs ih =>
    intro st
    rw [List.foldl_cons, ih, notes_addImageIfNew]

theorem notes_saveNoteImages (st : State) (nid : String) :
    (saveNoteImages st nid).notes = st.notes := by
  unfold saveNoteImages
  cases st.getNote nid with
  | none => rfl
  | some note =>
    dsimp only
    split
    · rfl
    · show (markUnusedDeleted nid (foundImageIds note)
        ((foundImageIds note).foldl (addImageIfNew nid (getNoteImages st nid)) st)).notes = st.notes
      unfold markUnusedDeleted
      exact notes_foldl_addImageIfNew nid (getNoteImages st nid) (foundImageIds note) st

theorem notes_protectNoteRevisions (st : State) (nid : String) :
    (protectNoteRevisions st nid).notes = st.notes := by
  unfold protectNoteRevisions; cases st.getNote nid <;> rfl

theorem find?_map_of_pred_inv {α : Type} (p : α → Bool) (f : α → α) (l : List α)
    (hf : ∀ a, p (f a) = p a) : (l.map f).find? p = (l.find? p).map f := by
  induction l with
  | nil => rfl
  | cons a l ih =>
    by_cases hpa : p a = true
    · rw [List.map_cons, List.find?_cons_of_pos _ (by rw [hf]; exact hpa),
        List.find?_cons_of_pos _ hpa, Option.map_some']
    · rw [List.map_cons, List.find?_cons_of_neg _ (by rw [hf]; simpa using hpa),
        List.find?_cons_of_neg _ (by simpa using hpa), ih]

theorem getNote_setNoteFields (st : State) (nid : String) (t c : Option String)
    (p : JsVal) (n : Note) (h : st.getNote nid = some n) :
    (setNoteFields st nid t c p).getNote nid =
      some { n with title := t, content := c, isProtected := p } := by
  have hn : n.noteId = nid := by
    have := List.find?_some h
    simpa using this
  show ((setNoteFields st nid t c p).notes).find? (fun m => m.noteId = nid) = _
  unfold setNoteFields
  dsimp only
  rw [find?_map_of_pred_inv _ _ _ (fun a => by by_cases ha : a.noteId = nid <;> simp [ha])]
  unfold State.getNote at h
  rw [h, Option.map_some']
  simp [hn]

/-! ### Claims C4 and C10: `updateNote` -/

theorem updateNote_unfold (st : State) (nid : String) (upd1 : NoteUpdates)
    (now intervalSec : Int) (note : Note) (h : st.getNote nid = some note) :
    updateNote st nid upd1 now intervalSec =
      some (protectNoteRevisions (saveNoteImages (setNoteFields
        (saveNoteRevision st note now intervalSec) nid
        (if note.type = "file" then { upd1 with content := note.content } else upd1).title
        (if note.type = "file" then { upd1 with content := note.content } else upd1).content
        (if note.type = "file" then { upd1 with content := note.content } else upd1).isProtected)
        nid) nid) := by
  unfold updateNote
  rw [h]

theorem getNote_after_pipeline (st : State) (nid : String) (note : Note)
    (t c : Option String) (p : JsVal) (now intervalSec : Int)
    (h : st.getNote nid = some note) :
    (protectNoteRevisions (saveNoteImages (setNoteFields
      (saveNoteRevision st note now intervalSec) nid t c p) nid) nid).getNote nid =
      some { note with title := t, content := c, isProtected := p } := by
  have h1 : (saveNoteRevision st note now intervalSec).getNote nid = some note := by
    show (saveNoteRevision st note now intervalSec).notes.find? _ = _
    rw [notes_saveNoteRevision]
    exact h
  have h2 := getNote_setNoteFields (saveNoteRevision st note now intervalSec) nid t c p note h1
  have h3 : (saveNoteImages (setNoteFields
      (saveNoteRevision st note now intervalSec) nid t c p) nid).getNote nid =
      some { note with title := t, content := c, isProtected := p } := by
    show (saveNoteImages _ _).notes.find? _ = _
    rw [notes_saveNoteImages]
    exact h2
  show (protectNoteRevisions _ _).notes.find? _ = _
  rw [notes_protectNoteRevisions]
  exact h3

/-- C4: `updateNote` on a `file`-type note leaves the note's persisted
content equal to its prior content, whatever `updates.content` holds. -/
theorem updateNote_file_preserves_content (st : State) (nid : String)
    (upd : NoteUpdates) (now intervalSec : Int) (note : Note)
    (h : st.getNote nid = some note) (hfile : note.type = "file") :
    ∃ st' : State, updateNote st nid upd now intervalSec = some st' ∧
      ∃ note' : Note, st'.getNote nid = some note' ∧
        note'.content = note.content := by
  refine ⟨_, updateNote_unfold st nid upd now intervalSec note h, ?_⟩
  rw [if_pos hfile]
  exact ⟨_, getNote_after_pipeline st nid note _ _ _ now intervalSec h, rfl⟩

/-- C10: `updateNote` on a note whose type is not `file` unconditionally
overwrites the note's `title`, `content` and `isProtected` with the values
of the updates object; an absent (`undefined`, here `none`) field replaces
the stored one rather than preserving it. -/
theorem updateNote_overwrites_fields (st : State) (nid : String)
    (upd : NoteUpdates) (now intervalSec : Int) (note : Note)
    (h : st.getNote nid = some note) (hfile : note.type ≠ "file") :
    ∃ st' : State, updateNote st nid upd now intervalSec = some st' ∧
      ∃ note' : Note, st'.getNote nid = some note' ∧
        note'.title = upd.title ∧ note'.content = upd.content ∧
        note'.isProtected = upd.isProtected := by
  refine ⟨_, updateNote_unfold st nid upd now intervalSec note h, ?_⟩
  rw [if_neg hfile]
  exact ⟨_, getNote_after_pipeline st nid note _ _ _ now intervalSec h, rfl, rfl, rfl⟩

/-- Concrete `file` note for the C4 witness. -/
def exNote4 : Note :=
  { noteId := "f1", title := some "payload", content := some "binary-data",
    type := "file", mime := "application/octet-stream",
    isProtected := JsVal.b false, isDeleted := false,
    dateCreated := 0, dateModified := 10, labels := [] }

/-- Concrete store for the C4 witness. -/
def exState4 : State :=
  { notes := [exNote4], branches := [], revisions := [], noteImages := [],
    reorderLog := [], nextId := 0, writes := 0 }

/-- Witness for C4: updating a concrete file note with a different content
value leaves its stored content unchanged. -/
theorem updateNote_file_preserves_content_witness :
    (exState4.getNote "f1" = some exNote4 ∧ exNote4.type = "file") ∧
    (∃ st' : State,
      updateNote exState4 "f1"
        { title := some "new", content := some "ignored", isProtected := JsVal.b false }
        1000000 600 = some st' ∧
      ∃ note' : Note, st'.getNote "f1" = some note' ∧
        note'.content = exNote4.content) :=
  ⟨⟨by decide, by decide⟩,
    updateNote_file_preserves_content exState4 "f1"
      { title := some "new", content := some "ignored", isProtected := JsVal.b false }
      1000000 600 exNote4 (by decide) (by decide)⟩

/-- Concrete text note for the C10 witness. -/
def exNote10 : Note :=
  { noteId := "t1", title := some "old title", content := some "old content",
    type := "text", mime := "text/html",
    isProtected := JsVal.b false, isDeleted := false,
    dateCreated := 0, dateModified := 10, labels := [] }

/-- Concrete store for the C10 witness. -/
def exState10 : State :=
  { notes := [exNote10], branches := [], revisions := [], noteImages := [],
    reorderLog := [], nextId := 0, writes := 0 }

/-- Witness for C10: updating a concrete text note with an updates object
whose title and content are absent (`undefined`) replaces the stored fields
with the absent value. -/
theorem updateNote_overwrites_fields_witness :
    (exState10.getNote "t1" = some exNote10 ∧ exNote10.type ≠ "file") ∧
    (∃ st' : State,
      updateNote exState10 "t1"
        { title := none, content := none, isProtected := JsVal.undef }
        1000000 600 = some st' ∧
      ∃ note' : Note, st'.getNote "t1" = some note' ∧
        note'.title = none ∧ note'.content = none ∧
        note'.isProtected = JsVal.undef) :=
  ⟨⟨by decide, by decide⟩,
    updateNote_overwrites_fields exState10 "t1"
      { title := none, content := none, isProtected := JsVal.undef }
      1000000 600 exNote10 (by decide) (by decide)⟩

/-! ### Claim C9: `deleteNote` is a no-op on a missing or deleted branch -/

/-- C9: calling `deleteNote` with an absent branch, or with a branch already
marked deleted, performs no writes and leaves the whole store (including the
write counter and the notification log) unchanged. -/
theorem deleteNote_noop (fuel : Nat) (st : State) (bid : String)
    (h : st.findBranch bid = none ∨
         ∃ b : Branch, st.findBranch bid = some b ∧ b.isDeleted = true) :
    deleteNote fuel st bid = some st := by
  unfold deleteNote
  rcases h with h | ⟨b, hb, hd⟩
  · rw [h]
  · rw [hb]
    dsimp only
    rw [if_pos hd]

/-- Concrete already-deleted branch for the C9 witness. -/
def exBranch9 : Branch :=
  { branchId := "bx", noteId := "nx", parentNoteId := "root",
    notePosition := 0, isExpanded := false, isDeleted := true }

/-- Concrete store for the C9 witness. -/
def exState9 : State :=
  { notes := [], branches := [exBranch9], revisions := [], noteImages := [],
    reorderLog := [], nextId := 3, writes := 7 }

/-- Witness for C9: deleting a concrete already-deleted branch returns the
store unchanged. -/
theorem deleteNote_noop_witness :
    (∃ b : Branch, exState9.findBranch "bx" = some b ∧ b.isDeleted = true) ∧
    deleteNote 0 exState9 "bx" = some exState9 :=
  ⟨⟨exBranch9, by decide, by decide⟩,
    deleteNote_noop 0 exState9 "bx" (Or.inr ⟨exBranch9, by decide, by decide⟩)⟩

/-! ### Claim C5: the deletion invariant -/

/-- The claim's invariant: a note is marked deleted exactly when it has no
non-deleted branch. -/
def DeletedInvariant (st : State) : Prop :=
  ∀ n ∈ st.notes,
    (n.isDeleted = true ↔ ∀ b ∈ st.branches, b.noteId = n.noteId → b.isDeleted = true)

/-- Database well-formedness: `branchId` is a primary key. -/
def BranchKeysUnique (st : State) : Prop :=
  (st.branches.map (fun b => b.branchId)).Nodup

instance (st : State) : Decidable (DeletedInvariant st) := by
  unfold DeletedInvariant; infer_instance

instance (st : State) : Decidable (BranchKeysUnique st) := by
  unfold BranchKeysUnique; infer_instance

theorem unique_markBranchDeleted (st : State) (bid : String)
    (hu : BranchKeysUnique st) : BranchKeysUnique (markBranchDeleted st bid) := by
  unfold BranchKeysUnique markBranchDeleted at *
  dsimp only
  rw [List.map_map]
  have : ((fun b : Branch => b.branchId) ∘
      (fun b => if b.branchId = bid then { b with isDeleted := true } else b)) =
      (fun b : Branch => b.branchId) := by
    funext b
    by_cases hb : b.branchId = bid <;> simp [hb]
  rw [this]
  exact hu

theorem mem_branches_eq_of_unique (st : State) (bid : String) (br : Branch)
    (hu : BranchKeysUnique st) (hf : st.findBranch bid = some br) :
    ∀ b ∈ st.branches, b.branchId = bid → b = br := by
  intro b hb hbid
  have hbr_mem : br ∈ st.branches := List.mem_of_find?_eq_some hf
  have hbr_id : br.branchId = bid := by simpa using List.find?_some hf
  exact List.inj_on_of_nodup_map hu hb hbr_mem (by rw [hbid, hbr_id])

theorem branchDelete_noteId (bid : String) (b : Branch) :
    ((if b.branchId = bid then { b with isDeleted := true } else b) : Branch).noteId
      = b.noteId := by
  by_cases hb : b.branchId = bid <;> simp [hb]

theorem branchDelete_keeps_deleted (bid : String) (b : Branch)
    (h : b.isDeleted = true) :
    ((if b.branchId = bid then { b with isDeleted := true } else b) : Branch).isDeleted
      = true := by
  by_cases hb : b.branchId = bid <;> simp [hb, h]

/-- Forward transfer: if every branch of note `X` is deleted, this still
holds after one more branch is marked deleted. -/
theorem allDeleted_after_mark (st : State) (bid : String) (X : String)
    (h : ∀ b ∈ st.branches, b.noteId = X → b.isDeleted = true) :
    ∀ b ∈ (markBranchDeleted st bid).branches, b.noteId = X → b.isDeleted = true := by
  intro b' hb' hid
  obtain ⟨b, hb, rfl⟩ := List.mem_map.mp hb'
  rw [branchDelete_noteId] at hid
  exact branchDelete_keeps_deleted bid b (h b hb hid)

/-- Backward transfer, away from the deleted branch's note: if after the
mark every branch of note `X ≠ br.noteId` is deleted, this already held
before the mark. -/
theorem allDeleted_before_mark (st : State) (bid : String) (br : Branch) (X : String)
    (hu : BranchKeysUnique st) (hf : st.findBranch bid = some br)
    (hX : X ≠ br.noteId)
    (h : ∀ b ∈ (markBranchDeleted st bid).branches, b.noteId = X → b.isDeleted = true) :
    ∀ b ∈ st.branches, b.noteId = X → b.isDeleted = true := by
  intro b hb hid
  by_cases hbid : b.branchId = bid
  · have hbr := mem_branches_eq_of_unique st bid br hu hf b hb hbid
    rw [hbr] at hid
    exact absurd hid.symm hX
  · have hmem : (if b.branchId = bid then { b with isDeleted := true } else b)
        ∈ (markBranchDeleted st bid).branches := List.mem_map_of_mem _ hb
    rw [if_neg hbid] at hmem
    exact h b hmem hid

/-- The invariant after marking one non-deleted branch deleted, in the case
where its note keeps a non-deleted branch (the note is not touched). -/
theorem invariant_mark_keep (st : State) (bid : String) (br : Branch)
    (hu : BranchKeysUnique st) (hinv : DeletedInvariant st)
    (hf : st.findBranch bid = some br)
    (hne : noteBranches (markBranchDeleted st bid) br.noteId ≠ []) :
    DeletedInvariant (markBranchDeleted st bid) := by
  intro n hn
  have hn0 : n ∈ st.notes := hn
  constructor
  · intro hdel
    exact allDeleted_after_mark st bid n.noteId ((hinv n hn0).mp hdel)
  · intro hall
    by_cases hX : n.noteId = br.noteId
    · exfalso
      obtain ⟨c, hc⟩ := List.exists_mem_of_ne_nil _ hne
      have hc' := List.mem_filter.mp hc
      have hcid : c.noteId = br.noteId ∧ c.isDeleted = false := by
        simpa using hc'.2
      have := hall c hc'.1 (by rw [hcid.1, hX])
      rw [hcid.2] at this
      exact Bool.false_ne_true this
    · exact (hinv n hn0).mpr (allDeleted_before_mark st bid br n.noteId hu hf hX hall)

/-- The invariant after marking the branch deleted and, its note having no
non-deleted branch left, marking the note deleted as well. -/
theorem invariant_mark_cascade (st : State) (bid : String) (br : Branch)
    (hu : BranchKeysUnique st) (hinv : DeletedInvariant st)
    (hf : st.findBranch bid = some br)
    (hnil : noteBranches (markBranchDeleted st bid) br.noteId = []) :
    DeletedInvariant (markNoteDeleted (markBranchDeleted st bid) br.noteId) := by
  intro n hn
  obtain ⟨m, hm, rfl⟩ := List.mem_map.mp hn
  have hall_br : ∀ b ∈ (markBranchDeleted st bid).branches,
      b.noteId = br.noteId → b.isDeleted = true := by
    intro b hb hid
    by_contra hnd
    have : b ∈ noteBranches (markBranchDeleted st bid) br.noteId := by
      apply List.mem_filter.mpr
      refine ⟨hb, ?_⟩
      simp only [decide_eq_true_eq]
      exact ⟨hid, Bool.eq_false_iff.mpr hnd⟩
    rw [hnil] at this
    exact absurd this (List.not_mem_nil b)
  by_cases hX : m.noteId = br.noteId
  · rw [if_pos hX]
    constructor
    · intro _
      intro b hb hid
      exact hall_br b hb (by simpa [hX] using hid)
    · intro _
      rfl
  · rw [if_neg hX]
    constructor
    · intro hdel
      exact allDeleted_after_mark st bid m.noteId ((hinv m hm).mp hdel)
    · intro hall
      exact (hinv m hm).mpr (allDeleted_before_mark st bid br m.noteId hu hf hX hall)

theorem deleteBranches_invariant :
    ∀ (fuel : Nat) (bids : List String) (st st' : State),
      BranchKeysUnique st → DeletedInvariant st →
      deleteBranches fuel st bids = some st' →
      BranchKeysUnique st' ∧ DeletedInvariant st' := by
  intro fuel
  induction fuel with
  | zero =>
    intro bids st st' hu hinv h
    cases bids with
    | nil =>
      simp only [deleteBranches, Option.some.injEq] at h
      subst h
      exact ⟨hu, hinv⟩
    | cons bid rest => simp [deleteBranches] at h
  | succ f ih =>
    intro bids st st' hu hinv h
    cases bids with
    | nil =>
      simp only [deleteBranches, Option.some.injEq] at h
      subst h
      exact ⟨hu, hinv⟩
    | cons bid rest =>
      simp only [deleteBranches] at h
      cases hfb : st.findBranch bid with
      | none =>
        rw [hfb] at h
        exact ih rest st st' hu hinv h
      | some br =>
        rw [hfb] at h
        dsimp only at h
        by_cases hdel : br.isDeleted = true
        · rw [if_pos hdel] at h
          exact ih rest st st' hu hinv h
        · rw [if_neg hdel] at h
          have hu1 : BranchKeysUnique (markBranchDeleted st bid) :=
            unique_markBranchDeleted st bid hu
          by_cases hnil : noteBranches (markBranchDeleted st bid) br.noteId = []
          · rw [if_pos hnil] at h
            have hu2 : BranchKeysUnique
                (markNoteDeleted (markBranchDeleted st bid) br.noteId) := hu1
            have hinv2 := invariant_mark_cascade st bid br hu hinv hfb hnil
            cases hrec : deleteBranches f
                (markNoteDeleted (markBranchDeleted st bid) br.noteId)
                (childBranchIds (markNoteDeleted (markBranchDeleted st bid) br.noteId)
                  br.noteId) with
            | none => rw [hrec] at h; cases h
            | some st3 =>
              rw [hrec] at h
              obtain ⟨hu3, hinv3⟩ := ih _ _ st3 hu2 hinv2 hrec
              exact ih rest st3 st' hu3 hinv3 h
          · rw [if_neg hnil] at h
            exact ih rest (markBranchDeleted st bid) st' hu1
              (invariant_mark_keep st bid br hu hinv hfb hnil) h

/-- C5: after any `deleteNote` call that completes, a note is marked deleted
exactly when it has zero non-deleted branches; in particular a note that
still has a non-deleted placement is never marked deleted. -/
theorem deleteNote_deleted_iff (fuel : Nat) (st : State) (bid : String)
    (st' : State) (hu : BranchKeysUnique st) (hinv : DeletedInvariant st)
    (h : deleteNote fuel st bid = some st') :
    DeletedInvariant st' ∧
    ∀ n ∈ st'.notes,
      (∃ b ∈ st'.branches, b.noteId = n.noteId ∧ b.isDeleted = false) →
        n.isDeleted = false := by
  have main : DeletedInvariant st' := by
    unfold deleteNote at h
    cases hfb : st.findBranch bid with
    | none =>
      rw [hfb] at h
      cases h
      exact hinv
    | some br =>
      rw [hfb] at h
      dsimp only at h
      by_cases hdel : br.isDeleted = true
      · rw [if_pos hdel] at h
        cases h
        exact hinv
      · rw [if_neg hdel] at h
        exact (deleteBranches_invariant (fuel + 1) [bid] st st' hu hinv h).2
  refine ⟨main, ?_⟩
  rintro n hn ⟨b, hb, hbid, hbdel⟩
  by_contra hdel
  rw [Bool.not_eq_false] at hdel
  have := (main n hn).mp hdel b hb hbid
  rw [hbdel] at this
  exact Bool.false_ne_true this

/-- Concrete store for the C5 witness: note `n1` placed under the root, note
`n2` placed under `n1`. -/
def exState5 : State :=
  { notes := [
      { noteId := "n1", title := some "a", content := some "", type := "text",
        mime := "text/html", isProtected := JsVal.b false, isDeleted := false,
        dateCreated := 0, dateModified := 0, labels := [] },
      { noteId := "n2", title := some "b", content := some "", type := "text",
        mime := "text/html", isProtected := JsVal.b false, isDeleted := false,
        dateCreated := 0, dateModified := 0, labels := [] }],
    branches := [
      { branchId := "b1", noteId := "n1", parentNoteId := "root",
        notePosition := 0, isExpanded := false, isDeleted := false },
      { branchId := "b2", noteId := "n2", parentNoteId := "n1",
        notePosition := 0, isExpanded := false, isDeleted := false }],
    revisions := [], noteImages := [], reorderLog := [], nextId := 0, writes := 0 }

/-- The store after `deleteNote` of branch `b1` in `exState5`: the cascade
deleted both placements and both notes. -/
def exState5res : State :=
  { notes := [
      { noteId := "n1", title := some "a", content := some "", type := "text",
        mime := "text/html", isProtected := JsVal.b false, isDeleted := true,
        dateCreated := 0, dateModified := 0, labels := [] },
      { noteId := "n2", title := some "b", content := some "", type := "text",
        mime := "text/html", isProtected := JsVal.b false, isDeleted := true,
        dateCreated := 0, dateModified := 0, labels := [] }],
    branches := [
      { branchId := "b1", noteId := "n1", parentNoteId := "root",
        notePosition := 0, isExpanded := false, isDeleted := true },
      { branchId := "b2", noteId := "n2", parentNoteId := "n1",
        notePosition := 0, isExpanded := false, isDeleted := true }],
    revisions := [], noteImages := [], reorderLog := [], nextId := 0, writes := 4 }

/-- Witness for C5: at a concrete store satisfying the invariant, a
completed `deleteNote` cascade yields a store satisfying it again. -/
theorem deleteNote_deleted_iff_witness :
    (BranchKeysUnique exState5 ∧ DeletedInvariant exState5 ∧
      deleteNote 2 exState5 "b1" = some exState5res) ∧
    (DeletedInvariant exState5res ∧
      ∀ n ∈ exState5res.notes,
        (∃ b ∈ exState5res.branches, b.noteId = n.noteId ∧ b.isDeleted = false) →
          n.isDeleted = false) :=
  ⟨⟨by decide, by decide, by decide⟩,
    deleteNote_deleted_iff 2 exState5 "b1" exState5res
      (by decide) (by decide) (by decide)⟩

/-! ### Claim C6: `protectNoteRecursively` -/

/-- Database well-formedness: `noteId` is a primary key. -/
def NoteKeysUnique (st : State) : Prop :=
  (st.notes.map (fun n => n.noteId)).Nodup

instance (st : State) : Decidable (NoteKeysUnique st) := by
  unfold NoteKeysUnique; infer_instance

/-- Note `m` (every row carrying its id) and all of its revisions report
`isProtected = true`. -/
def ProtectedAt (st : State) (m : String) : Prop :=
  ∀ n ∈ st.notes, n.noteId = m →
    n.isProtected = JsVal.b true ∧
    ∀ r ∈ st.revisions, r.noteId = m → r.isProtected = JsVal.b true

/-- Reachability through non-deleted child branches, from parent to child. -/
inductive Reachable (bs : List Branch) : String → String → Prop
  | refl (a : String) : Reachable bs a a
  | step (a c : String) (b : Branch) (hb : b ∈ bs) (hpar : b.parentNoteId = a)
      (hdel : b.isDeleted = false) (h : Reachable bs b.noteId c) : Reachable bs a c

theorem branches_protectNoteRevisions (st : State) (nid : String) :
    (protectNoteRevisions st nid).branches = st.branches := by
  unfold protectNoteRevisions; cases st.getNote nid <;> rfl

theorem branches_protectNote (st : State) (nid : String) (p : Bool) :
    (protectNote st nid p).branches = st.branches := by
  unfold protectNote
  cases st.getNote nid with
  | none => rfl
  | some note =>
    dsimp only
    rw [branches_protectNoteRevisions]
    split <;> rfl

theorem revisions_protectNoteRevisions (st : State) (nid : String) (note : Note)
    (hg : st.getNote nid = some note) :
    (protectNoteRevisions st nid).revisions = st.revisions.map (fun r =>
      if r.noteId = nid ∧ note.isProtected ≠ r.isProtected
      then { r with isProtected := note.isProtected } else r) := by
  unfold protectNoteRevisions
  rw [hg]

theorem noteKeys_setNoteProtected (st : State) (nid : String) (v : JsVal) :
    (setNoteProtected st nid v).notes.map (fun n => n.noteId) =
      st.notes.map (fun n => n.noteId) := by
  unfold setNoteProtected
  dsimp only
  rw [List.map_map]
  apply List.map_congr_left
  intro n _
  by_cases hn : n.noteId = nid <;> simp [hn]

theorem noteKeys_protectNote (st : State) (nid : String) (p : Bool) :
    (protectNote st nid p).notes.map (fun n => n.noteId) =
      st.notes.map (fun n => n.noteId) := by
  unfold protectNote
  cases st.getNote nid with
  | none => rfl
  | some note =>
    dsimp only
    rw [notes_protectNoteRevisions]
    split
    · exact noteKeys_setNoteProtected st nid (JsVal.b p)
    · rfl

theorem getNote_setNoteProtected (st : State) (nid : String) (v : JsVal)
    (n : Note) (h : st.getNote nid = some n) :
    (setNoteProtected st nid v).getNote nid = some { n with isProtected := v } := by
  have hn : n.noteId = nid := by
    have := List.find?_some h
    simpa using this
  show ((setNoteProtected st nid v).notes).find? (fun m => m.noteId = nid) = _
  unfold setNoteProtected
  dsimp only
  rw [find?_map_of_pred_inv _ _ _ (fun a => by by_cases ha : a.noteId = nid <;> simp [ha])]
  unfold State.getNote at h
  rw [h, Option.map_some']
  simp [hn]

theorem revisionsProtected_of_flag (st1 : State) (nid : String) (note1 : Note)
    (hg1 : st1.getNote nid = some note1)
    (hflag : note1.isProtected = JsVal.b true) :
    ∀ r ∈ (protectNoteRevisions st1 nid).revisions, r.noteId = nid →
      r.isProtected = JsVal.b true := by
  intro r hr hrid
  rw [revisions_protectNoteRevisions st1 nid note1 hg1] at hr
  obtain ⟨r0, hr0, rfl⟩ := List.mem_map.mp hr
  by_cases hc : r0.noteId = nid ∧ note1.isProtected ≠ r0.isProtected
  · rw [if_pos hc]
    simpa using hflag
  · rw [if_neg hc] at hrid ⊢
    have h2 : note1.isProtected = r0.isProtected :=
      not_not.mp (by
        intro hne
        exact hc ⟨hrid, hne⟩)
    rw [← h2]
    exact hflag

theorem notesProtected_setNoteProtected (st : State) (nid : String) (v : JsVal) :
    ∀ n ∈ (setNoteProtected st nid v).notes, n.noteId = nid → n.isProtected = v := by
  intro n hn hnid
  obtain ⟨m, hm, rfl⟩ := List.mem_map.mp hn
  by_cases hmn : m.noteId = nid
  · simp [hmn]
  · rw [if_neg hmn] at hnid
    exact absurd hnid hmn

theorem protectNote_protects_self (st : State) (nid : String)
    (hkeys : NoteKeysUnique st) :
    ProtectedAt (protectNote st nid true) nid := by
  unfold protectNote
  cases hg : st.getNote nid with
  | none =>
    intro n hn hnid
    exact absurd hnid (by simpa using List.find?_eq_none.mp hg n hn)
  | some note =>
    dsimp only
    by_cases hcond : JsVal.b true ≠ note.isProtected
    · rw [if_pos hcond]
      have hg1 := getNote_setNoteProtected st nid (JsVal.b true) note hg
      intro n hn hnid
      rw [notes_protectNoteRevisions] at hn
      exact ⟨notesProtected_setNoteProtected st nid (JsVal.b true) n hn hnid,
        revisionsProtected_of_flag _ nid _ hg1 (by simp)⟩
    · rw [if_neg hcond]
      have hflag : note.isProtected = JsVal.b true := (not_not.mp hcond).symm
      intro n hn hnid
      rw [notes_protectNoteRevisions] at hn
      refine ⟨?_, revisionsProtected_of_flag st nid note hg hflag⟩
      have hnote_mem : note ∈ st.notes := List.mem_of_find?_eq_some hg
      have hnoteid : note.noteId = nid := by simpa using List.find?_some hg
      have : n = note :=
        List.inj_on_of_nodup_map hkeys hn hnote_mem (by rw [hnid, hnoteid])
      rw [this, hflag]

theorem protectNote_mono (st : State) (nid X : String)
    (h : ProtectedAt st X) : ProtectedAt (protectNote st nid true) X := by
  unfold protectNote
  cases hg : st.getNote nid with
  | none => exact h
  | some note =>
    dsimp only
    by_cases hcond : JsVal.b true ≠ note.isProtected
    · rw [if_pos hcond]
      have hg1 := getNote_setNoteProtected st nid (JsVal.b true) note hg
      intro n hn hnid
      rw [notes_protectNoteRevisions] at hn
      obtain ⟨m, hm, rfl⟩ := List.mem_map.mp hn
      have hmX : m.noteId = X := by
        by_cases hmn : m.noteId = nid <;> simpa [hmn] using hnid
      constructor
      · by_cases hmn : m.noteId = nid
        · simp [hmn]
        · rw [if_neg hmn]
          exact (h m hm hmX).1
      · intro r hr hrid
        rw [revisions_protectNoteRevisions _ _ _ hg1] at hr
        obtain ⟨r0, hr0, rfl⟩ := List.mem_map.mp hr
        by_cases hc : r0.noteId = nid ∧
            ({ note with isProtected := JsVal.b true } : Note).isProtected ≠ r0.isProtected
        · rw [if_pos hc]
        · rw [if_neg hc] at hrid ⊢
          exact (h m hm hmX).2 r0 hr0 hrid
    · rw [if_neg hcond]
      have hflag : note.isProtected = JsVal.b true := (not_not.mp hcond).symm
      intro n hn hnid
      rw [notes_protectNoteRevisions] at hn
      refine ⟨(h n hn hnid).1, ?_⟩
      intro r hr hrid
      rw [revisions_protectNoteRevisions _ _ _ hg] at hr
      obtain ⟨r0, hr0, rfl⟩ := List.mem_map.mp hr
      by_cases hc : r0.noteId = nid ∧ note.isProtected ≠ r0.isProtected
      · rw [if_pos hc]
        simpa using hflag
      · rw [if_neg hc] at hrid ⊢
        exact (h n hn hnid).2 r0 hr0 hrid

theorem protectList_branches :
    ∀ (fuel : Nat) (nids : List String) (st st' : State) (p : Bool),
      protectList fuel st nids p = some st' → st'.branches = st.branches := by
  intro fuel
  induction fuel with
  | zero =>
    intro nids st st' p h
    cases nids with
    | nil =>
      simp only [protectList, Option.some.injEq] at h
      rw [← h]
    | cons nid rest => simp [protectList] at h
  | succ f ih =>
    intro nids st st' p h
    cases nids with
    | nil =>
      simp only [protectList, Option.some.injEq] at h
      rw [← h]
    | cons nid rest =>
      simp only [protectList] at h
      cases hrec : protectList f (protectNote st nid p)
          (childNoteIds (protectNote st nid p) nid) p with
      | none => rw [hrec] at h; cases h
      | some st2 =>
        rw [hrec] at h
        rw [ih rest st2 st' p h, ih _ _ st2 p hrec, branches_protectNote]

theorem protectList_noteKeys :
    ∀ (fuel : Nat) (nids : List String) (st st' : State) (p : Bool),
      protectList fuel st nids p = some st' →
      st'.notes.map (fun n => n.noteId) = st.notes.map (fun n => n.noteId) := by
  intro fuel
  induction fuel with
  | zero =>
    intro nids st st' p h
    cases nids with
    | nil =>
      simp only [protectList, Option.some.injEq] at h
      rw [← h]
    | cons nid rest => simp [protectList] at h
  | succ f ih =>
    intro nids st st' p h
    cases nids with
    | nil =>
      simp only [protectList, Option.some.injEq] at h
      rw [← h]
    | cons nid rest =>
      simp only [protectList] at h
      cases hrec : protectList f (protectNote st nid p)
          (childNoteIds (protectNote st nid p) nid) p with
      | none => rw [hrec] at h; cases h
      | some st2 =>
        rw [hrec] at h
        rw [ih rest st2 st' p h, ih _ _ st2 p hrec, noteKeys_protectNote]

theorem protectList_mono :
    ∀ (fuel : Nat) (nids : List String) (st st' : State) (X : String),
      protectList fuel st nids true = some st' →
      ProtectedAt st X → ProtectedAt st' X := by
  intro fuel
  induction fuel with
  | zero =>
    intro nids st st' X h hX
    cases nids with
    | nil =>
      simp only [protectList, Option.some.injEq] at h
      rw [← h]
      exact hX
    | cons nid rest => simp [protectList] at h
  | succ f ih =>
    intro nids st st' X h hX
    cases nids with
    | nil =>
      simp only [protectList, Option.some.injEq] at h
      rw [← h]
      exact hX
    | cons nid rest =>
      simp only [protectList] at h
      cases hrec : protectList f (protectNote st nid true)
          (childNoteIds (protectNote st nid true) nid) true with
      | none => rw [hrec] at h; cases h
      | some st2 =>
        rw [hrec] at h
        exact ih rest st2 st' X h
          (ih _ _ st2 X hrec (protectNote_mono st nid X hX))

theorem protectList_protects :
    ∀ (fuel : Nat) (nids : List String) (st st' : State),
      NoteKeysUnique st →
      protectList fuel st nids true = some st' →
      ∀ nid ∈ nids, ∀ m, Reachable st.branches nid m → ProtectedAt st' m := by
  intro fuel
  induction fuel with
  | zero =>
    intro nids st st' hk h
    cases nids with
    | nil => intro nid hnid; simp at hnid
    | cons a r => simp [protectList] at h
  | succ f ih =>
    intro nids st st' hk h
    cases nids with
    | nil => intro nid hnid; simp at hnid
    | cons nid rest =>
      simp only [protectList] at h
      cases hrec : protectList f (protectNote st nid true)
          (childNoteIds (protectNote st nid true) nid) true with
      | none => rw [hrec] at h; cases h
      | some st2 =>
        rw [hrec] at h
        have hk1 : NoteKeysUnique (protectNote st nid true) := by
          unfold NoteKeysUnique
          rw [noteKeys_protectNote]
          exact hk
        have hk2 : NoteKeysUnique st2 := by
          unfold NoteKeysUnique
          rw [protectList_noteKeys f _ _ st2 true hrec]
          exact hk1
        intro nid' hnid' m hreach
        rcases List.mem_cons.mp hnid' with heq | hmem
        · subst heq
          cases hreach with
          | refl =>
            have h1 : ProtectedAt (protectNote st nid' true) nid' :=
              protectNote_protects_self st nid' hk
            have h2 : ProtectedAt st2 nid' := protectList_mono f _ _ st2 nid' hrec h1
            exact protectList_mono f rest st2 st' nid' h h2
          | step a c b hb hpar hdel hstep =>
            have hchild : b.noteId ∈ childNoteIds (protectNote st nid' true) nid' := by
              unfold childNoteIds
              rw [branches_protectNote]
              exact List.mem_map_of_mem _
                (List.mem_filter.mpr ⟨hb, by simp [hpar, hdel]⟩)
            have hreach1 : Reachable (protectNote st nid' true).branches b.noteId m := by
              rw [branches_protectNote]
              exact hstep
            have h2 : ProtectedAt st2 m :=
              ih _ _ st2 hk1 hrec b.noteId hchild m hreach1
            exact protectList_mono f rest st2 st' m h h2
        · have hreach2 : Reachable st2.branches nid' m := by
            rw [protectList_branches f _ _ st2 true hrec, branches_protectNote]
            exact hreach
          exact ih rest st2 st' hk2 h nid' hmem m hreach2

theorem protectList_enough_fuel :
    ∀ (fuel : Nat) (nids : List String) (st : State) (p : Bool)
      (rank : String → Nat) (r : Nat),
      (∀ b ∈ st.branches, b.isDeleted = false → rank b.noteId < rank b.parentNoteId) →
      (∀ n ∈ nids, rank n ≤ r) →
      nids.length + r * st.branches.length ≤ fuel →
      ∃ st', protectList fuel st nids p = some st' := by
  intro fuel
  induction fuel with
  | zero =>
    intro nids st p rank r hr hn hf
    cases nids with
    | nil => exact ⟨st, rfl⟩
    | cons a rest => simp at hf
  | succ f ih =>
    intro nids st p rank r hr hn hf
    cases nids with
    | nil => exact ⟨st, rfl⟩
    | cons nid rest =>
      have hbr1 : (protectNote st nid p).branches = st.branches :=
        branches_protectNote st nid p
      have hrank_nid : rank nid ≤ r := hn nid (by simp)
      have hchild_rank : ∀ c ∈ childNoteIds (protectNote st nid p) nid,
          rank c < rank nid := by
        intro c hc
        unfold childNoteIds at hc
        rw [hbr1] at hc
        obtain ⟨b, hb, rfl⟩ := List.mem_map.mp hc
        have hb' := List.mem_filter.mp hb
        have hb2 : b.parentNoteId = nid ∧ b.isDeleted = false := by
          simpa using hb'.2
        have := hr b hb'.1 hb2.2
        rw [hb2.1] at this
        exact this
      have hrB : r * st.branches.length ≤ f := by
        have : rest.length + 1 + r * st.branches.length ≤ f + 1 := by
          simpa using hf
        omega
      have hchildren_bound : (childNoteIds (protectNote st nid p) nid).length +
          (rank nid - 1) * (protectNote st nid p).branches.length ≤ f := by
        rw [hbr1]
        rcases Nat.eq_zero_or_pos (rank nid) with h0 | hpos
        · have hempty : childNoteIds (protectNote st nid p) nid = [] := by
            apply List.eq_nil_iff_forall_not_mem.mpr
            intro c hc
            have := hchild_rank c hc
            omega
          rw [hempty]
          simp [h0]
        · have hlen : (childNoteIds (protectNote st nid p) nid).length ≤
              st.branches.length := by
            unfold childNoteIds
            rw [hbr1, List.length_map]
            exact List.length_filter_le _ _
          have hk : rank nid = (rank nid - 1) + 1 := by omega
          have hmul : rank nid * st.branches.length ≤ r * st.branches.length :=
            Nat.mul_le_mul_right _ hrank_nid
          have hsucc : ((rank nid - 1) + 1) * st.branches.length =
              (rank nid - 1) * st.branches.length + st.branches.length :=
            Nat.succ_mul _ _
          rw [hk, hsucc] at hmul
          omega
      obtain ⟨st2, hrec⟩ := ih (childNoteIds (protectNote st nid p) nid)
        (protectNote st nid p) p rank (rank nid - 1)
        (by rw [hbr1]; exact hr)
        (fun c hc => by have := hchild_rank c hc; omega)
        hchildren_bound
      have hbr2 : st2.branches = st.branches := by
        rw [protectList_branches f _ _ st2 p hrec, hbr1]
      obtain ⟨st3, hrest⟩ := ih rest st2 p rank r
        (by rw [hbr2]; exact hr)
        (fun n hn' => hn n (List.mem_cons_of_mem _ hn'))
        (by rw [hbr2]; simp at hf; omega)
      refine ⟨st3, ?_⟩
      simp only [protectList, hrec]
      exact hrest

/-- C6: for every note of a placement graph without cycles — witnessed by a
rank function that decreases from parent to child along every non-deleted
branch — `protectNoteRecursively(note, true)` terminates (enough fuel
exists, and `1 + rank * #branches` suffices), and afterwards every note
reachable from it through non-deleted child branches, and every revision of
each such note, reports `isProtected = true`.  `noteId` is assumed to be a
primary key of the notes table. -/
theorem protectNoteRecursively_protects (st : State) (rank : String → Nat)
    (nid : String) (fuel : Nat)
    (hkeys : NoteKeysUnique st)
    (hrank : ∀ b ∈ st.branches, b.isDeleted = false →
      rank b.noteId < rank b.parentNoteId)
    (hfuel : 1 + rank nid * st.branches.length ≤ fuel) :
    ∃ st', protectNoteRecursively fuel st nid true = some st' ∧
      ∀ m, Reachable st.branches nid m → ProtectedAt st' m := by
  obtain ⟨st', h⟩ := protectList_enough_fuel fuel [nid] st true rank (rank nid)
    hrank (by simp) (by simpa using hfuel)
  exact ⟨st', h, fun m hm =>
    protectList_protects fuel [nid] st st' hkeys h nid (by simp) m hm⟩

/-- Rank function for the C6 witness graph: parent `p1` above child `c1`. -/
def exRank6 : String → Nat := fun s => if s = "p1" then 1 else 0

/-- Concrete store for the C6 witness: unprotected parent `p1` with child
`c1`, which has an unprotected revision. -/
def exState6 : State :=
  { notes := [
      { noteId := "p1", title := some "p", content := some "", type := "text",
        mime := "text/html", isProtected := JsVal.b false, isDeleted := false,
        dateCreated := 0, dateModified := 0, labels := [] },
      { noteId := "c1", title := some "c", content := some "", type := "text",
        mime := "text/html", isProtected := JsVal.n 0, isDeleted := false,
        dateCreated := 0, dateModified := 0, labels := [] }],
    branches := [
      { branchId := "bb", noteId := "c1", parentNoteId := "p1",
        notePosition := 0, isExpanded := false, isDeleted := false }],
    revisions := [
      { noteRevisionId := "r1", noteId := "c1", title := some "c",
        content := some "", isProtected := JsVal.n 0,
        dateModifiedFrom := 0, dateModifiedTo := 0 }],
    noteImages := [], reorderLog := [], nextId := 0, writes := 0 }

/-- Witness for C6 at a concrete acyclic store. -/
theorem protectNoteRecursively_protects_witness :
    (NoteKeysUnique exState6 ∧
      (∀ b ∈ exState6.branches, b.isDeleted = false →
        exRank6 b.noteId < exRank6 b.parentNoteId) ∧
      1 + exRank6 "p1" * exState6.branches.length ≤ 2) ∧
    (∃ st', protectNoteRecursively 2 exState6 "p1" true = some st' ∧
      ∀ m, Reachable exState6.branches "p1" m → ProtectedAt st' m) :=
  ⟨⟨by decide, by decide, by decide⟩,
    protectNoteRecursively_protects exState6 exRank6 "p1" 2
      (by decide) (by decide) (by decide)⟩

/-! ### Claims C7 and C8: the Image Reference Tracker -/

theorem existing_any_iff (st : State) (nid iid : String) :
    (getNoteImages st nid).any (fun ni => ni.imageId = iid) = true ↔
    ∃ ni ∈ st.noteImages, ni.noteId = nid ∧ ni.isDeleted = false ∧
      ni.imageId = iid := by
  unfold getNoteImages
  simp only [List.any_eq_true, List.mem_filter, decide_eq_true_eq]
  constructor
  · rintro ⟨ni, ⟨hmem, hflt⟩, hid⟩
    exact ⟨ni, hmem, hflt.1, hflt.2, hid⟩
  · rintro ⟨ni, hmem, h1, h2, h3⟩
    exact ⟨ni, ⟨hmem, h1, h2⟩, h3⟩

theorem foldl_addImage_id (nid : String) (existing : List NoteImage) :
    ∀ (ids : List String) (st : State),
      (∀ iid ∈ ids, existing.any (fun ni => ni.imageId = iid) = true) →
      ids.foldl (addImageIfNew nid existing) st = st := by
  intro ids
  induction ids with
  | nil => intro st _; rfl
  | cons iid rest ih =>
    intro st h
    rw [List.foldl_cons]
    have hstep : addImageIfNew nid existing st iid = st := by
      unfold addImageIfNew
      rw [if_pos (h iid (by simp))]
    rw [hstep]
    exact ih st (fun j hj => h j (List.mem_cons_of_mem _ hj))

theorem foldl_addImage_append (nid : String) (existing : List NoteImage) :
    ∀ (ids : List String) (st : State),
      ∃ L : List NoteImage,
        (ids.foldl (addImageIfNew nid existing) st).noteImages =
          st.noteImages ++ L ∧
        L.map (fun x => x.imageId) =
          ids.filter (fun iid => existing.any (fun ni => ni.imageId = iid) = false) ∧
        ∀ x ∈ L, x.noteId = nid ∧ x.isDeleted = false := by
  intro ids
  induction ids with
  | nil => intro st; exact ⟨[], by simp, by simp, by simp⟩
  | cons iid rest ih =>
    intro st
    rw [List.foldl_cons]
    by_cases hany : existing.any (fun ni => ni.imageId = iid) = true
    · have hstep : addImageIfNew nid existing st iid = st := by
        unfold addImageIfNew
        rw [if_pos hany]
      rw [hstep]
      obtain ⟨L, h1, h2, h3⟩ := ih st
      refine ⟨L, h1, ?_, h3⟩
      rw [h2, List.filter_cons]
      simp [hany]
    · have hfalse : existing.any (fun ni => ni.imageId = iid) = false :=
        Bool.eq_false_iff.mpr hany
      have hstep : addImageIfNew nid existing st iid =
          { st with
            noteImages := st.noteImages ++ [{
              noteImageId := st.freshId, noteId := nid,
              imageId := iid, isDeleted := false }],
            nextId := st.nextId + 1,
            writes := st.writes + 1 } := by
        unfold addImageIfNew
        rw [if_neg hany]
      rw [hstep]
      obtain ⟨L, h1, h2, h3⟩ := ih _
      refine ⟨{ noteImageId := st.freshId, noteId := nid,
                imageId := iid, isDeleted := false } :: L, ?_, ?_, ?_⟩
      · rw [h1]
        simp
      · rw [List.map_cons, h2, List.filter_cons]
        simp [hfalse]
      · intro x hx
        rcases List.mem_cons.mp hx with rfl | hx'
        · exact ⟨rfl, rfl⟩
        · exact h3 x hx'

theorem markUnusedDeleted_id (nid : String) (found : List String) (st : State)
    (h : ∀ ni ∈ st.noteImages,
      ¬(ni.noteId = nid ∧ ni.isDeleted = false ∧ ni.imageId ∉ found)) :
    markUnusedDeleted nid found st = st := by
  unfold markUnusedDeleted
  have hmap : st.noteImages.map (fun ni =>
      if ni.noteId = nid ∧ ni.isDeleted = false ∧ ni.imageId ∉ found
      then { ni with isDeleted := true } else ni) = st.noteImages := by
    rw [List.map_congr_left (fun ni hni => if_neg (h ni hni))]
    exact List.map_id _
  have hfilter : (st.noteImages.filter (fun ni =>
      ni.noteId = nid ∧ ni.isDeleted = false ∧ ni.imageId ∉ found)) = [] := by
    apply List.filter_eq_nil_iff.mpr
    intro ni hni
    simpa using h ni hni
  rw [hmap, hfilter]
  simp

theorem saveNoteImages_unfold_text (st : State) (nid : String) (note : Note)
    (hg : st.getNote nid = some note) (htext : note.type = "text") :
    saveNoteImages st nid =
      markUnusedDeleted nid (foundImageIds note)
        ((foundImageIds note).foldl (addImageIfNew nid (getNoteImages st nid)) st) := by
  unfold saveNoteImages
  rw [hg]
  dsimp only
  rw [if_neg (not_not_intro htext)]

theorem saveNoteImages_post (st : State) (nid : String) (note : Note)
    (hg : st.getNote nid = some note) (htext : note.type = "text") :
    (∀ iid ∈ foundImageIds note,
      ∃ ni ∈ (saveNoteImages st nid).noteImages,
        ni.noteId = nid ∧ ni.isDeleted = false ∧ ni.imageId = iid) ∧
    (∀ ni ∈ (saveNoteImages st nid).noteImages,
      ni.noteId = nid → ni.isDeleted = false → ni.imageId ∈ foundImageIds note) := by
  rw [saveNoteImages_unfold_text st nid note hg htext]
  obtain ⟨L, hL1, hL2, hL3⟩ :=
    foldl_addImage_append nid (getNoteImages st nid) (foundImageIds note) st
  have hLfound : ∀ x ∈ L, x.imageId ∈ foundImageIds note := by
    intro x hx
    have : x.imageId ∈ L.map (fun x => x.imageId) := List.mem_map_of_mem _ hx
    rw [hL2] at this
    exact (List.mem_filter.mp this).1
  have hgx : ∀ x ∈ L,
      (if x.noteId = nid ∧ x.isDeleted = false ∧ x.imageId ∉ foundImageIds note
       then { x with isDeleted := true } else x) = x := by
    intro x hx
    exact if_neg (fun hc => hc.2.2 (hLfound x hx))
  have himgs : (markUnusedDeleted nid (foundImageIds note)
      ((foundImageIds note).foldl (addImageIfNew nid (getNoteImages st nid)) st)).noteImages =
      st.noteImages.map (fun ni =>
        if ni.noteId = nid ∧ ni.isDeleted = false ∧ ni.imageId ∉ foundImageIds note
        then { ni with isDeleted := true } else ni) ++ L := by
    unfold markUnusedDeleted
    dsimp only
    rw [hL1, List.map_append, List.map_congr_left hgx, List.map_id']
  constructor
  · intro iid hiid
    by_cases hany : (getNoteImages st nid).any (fun ni => ni.imageId = iid) = true
    · obtain ⟨ni, hmem, h1, h2, h3⟩ := (existing_any_iff st nid iid).mp hany
      refine ⟨ni, ?_, h1, h2, h3⟩
      rw [himgs]
      apply List.mem_append_left
      have : (if ni.noteId = nid ∧ ni.isDeleted = false ∧ ni.imageId ∉ foundImageIds note
          then { ni with isDeleted := true } else ni) = ni := by
        apply if_neg
        rintro ⟨_, _, hnf⟩
        rw [h3] at hnf
        exact hnf hiid
      rw [← this]
      exact List.mem_map_of_mem _ hmem
    · have hfalse : (getNoteImages st nid).any (fun ni => ni.imageId = iid) = false :=
        Bool.eq_false_iff.mpr hany
      have : iid ∈ L.map (fun x => x.imageId) := by
        rw [hL2]
        exact List.mem_filter.mpr ⟨hiid, by simp [hfalse]⟩
      obtain ⟨x, hxL, hxid⟩ := List.mem_map.mp this
      refine ⟨x, ?_, (hL3 x hxL).1, (hL3 x hxL).2, hxid⟩
      rw [himgs]
      exact List.mem_append_right _ hxL
  · intro ni hni h1 h2
    rw [himgs] at hni
    rcases List.mem_append.mp hni with hmem | hmem
    · obtain ⟨m, hm, heq⟩ := List.mem_map.mp hmem
      by_cases hc : m.noteId = nid ∧ m.isDeleted = false ∧
          m.imageId ∉ foundImageIds note
      · rw [if_pos hc] at heq
        rw [← heq] at h2
        simp at h2
      · rw [if_neg hc] at heq
        subst heq
        by_contra hnf
        exact hc ⟨h1, h2, hnf⟩
    · exact hLfound ni hmem

/-- C8: the Image Reference Tracker is idempotent: running it a second time
against unchanged content performs zero writes — it leaves the whole store,
write counter included, unchanged. -/
theorem saveNoteImages_idempotent (st : State) (nid : String) :
    saveNoteImages (saveNoteImages st nid) nid = saveNoteImages st nid := by
  cases hg : st.getNote nid with
  | none =>
    have h1 : saveNoteImages st nid = st := by
      unfold saveNoteImages
      rw [hg]
    rw [h1, h1]
  | some note =>
    by_cases htext : note.type = "text"
    · have hg2 : (saveNoteImages st nid).getNote nid = some note := by
        show (saveNoteImages st nid).notes.find? _ = _
        rw [notes_saveNoteImages]
        exact hg
      obtain ⟨hA, hB⟩ := saveNoteImages_post st nid note hg htext
      rw [saveNoteImages_unfold_text (saveNoteImages st nid) nid note hg2 htext]
      have hall : ∀ iid ∈ foundImageIds note,
          (getNoteImages (saveNoteImages st nid) nid).any
            (fun ni => ni.imageId = iid) = true := by
        intro iid hiid
        exact (existing_any_iff _ nid iid).mpr (hA iid hiid)
      rw [foldl_addImage_id nid _ (foundImageIds note) (saveNoteImages st nid) hall]
      apply markUnusedDeleted_id
      intro ni hni
      rintro ⟨h1, h2, h3⟩
      exact h3 (hB ni hni h1 h2)
    · have h1 : saveNoteImages st nid = st := by
        unfold saveNoteImages
        rw [hg]
        dsimp only
        rw [if_pos htext]
      rw [h1, h1]

theorem saveNoteImages_images (st : State) (nid : String) (note : Note)
    (hg : st.getNote nid = some note) (htext : note.type = "text") :
    ∃ L : List NoteImage,
      (saveNoteImages st nid).noteImages =
        st.noteImages.map (fun ni =>
          if ni.noteId = nid ∧ ni.isDeleted = false ∧
              ni.imageId ∉ foundImageIds note
          then { ni with isDeleted := true } else ni) ++ L ∧
      L.map (fun x => x.imageId) =
        (foundImageIds note).filter
          (fun iid => (getNoteImages st nid).any
            (fun ni => ni.imageId = iid) = false) ∧
      ∀ x ∈ L, x.noteId = nid ∧ x.isDeleted = false := by
  rw [saveNoteImages_unfold_text st nid note hg htext]
  obtain ⟨L, hL1, hL2, hL3⟩ :=
    foldl_addImage_append nid (getNoteImages st nid) (foundImageIds note) st
  have hLfound : ∀ x ∈ L, x.imageId ∈ foundImageIds note := by
    intro x hx
    have : x.imageId ∈ L.map (fun x => x.imageId) := List.mem_map_of_mem _ hx
    rw [hL2] at this
    exact (List.mem_filter.mp this).1
  have hgx : ∀ x ∈ L,
      (if x.noteId = nid ∧ x.isDeleted = false ∧ x.imageId ∉ foundImageIds note
       then { x with isDeleted := true } else x) = x := by
    intro x hx
    exact if_neg (fun hc => hc.2.2 (hLfound x hx))
  refine ⟨L, ?_, hL2, hL3⟩
  unfold markUnusedDeleted
  dsimp only
  rw [hL1, List.map_append, List.map_congr_left hgx, List.map_id']

theorem filter_eq_singleton_length {α : Type} [DecidableEq α] :
    ∀ (l : List α) (a : α), l.Nodup → a ∈ l →
      (l.filter (fun s => s = a)).length = 1 := by
  intro l
  induction l with
  | nil => intro a _ ha; simp at ha
  | cons x xs ih =>
    intro a hn ha
    rw [List.filter_cons]
    by_cases hx : x = a
    · subst hx
      simp only [decide_True, if_pos]
      have hnotin : x ∉ xs := (List.nodup_cons.mp hn).1
      have : xs.filter (fun s => s = x) = [] := by
        apply List.filter_eq_nil_iff.mpr
        intro s hs
        simp only [decide_eq_true_eq]
        intro heq
        exact hnotin (heq ▸ hs)
      rw [this]
      rfl
    · simp only [hx, decide_False]
      rw [if_neg (by simp)]
      have ha' : a ∈ xs := by
        rcases List.mem_cons.mp ha with h | h
        · exact absurd h.symm hx
        · exact h
      exact ih a (List.nodup_cons.mp hn).2 ha'

/-- C7 (amended): for every text note whose content references each image
identifier at most once, the tracker creates exactly one new non-deleted
tracking record per distinct identifier found that has no existing
(non-deleted) tracking record, marks deleted every existing record whose
identifier no longer appears in the content, and writes nothing for records
whose identifier is still present.  (Without the at-most-once hypothesis
the source creates one record per occurrence, because the existence check
runs against the pre-loop snapshot; see the counterexample.) -/
theorem saveNoteImages_reconciles (st : State) (nid : String) (note : Note)
    (hg : st.getNote nid = some note) (htext : note.type = "text")
    (hnodup : (foundImageIds note).Nodup) :
    (∀ iid ∈ foundImageIds note,
      (∀ ni ∈ st.noteImages, ni.noteId = nid → ni.isDeleted = false →
        ni.imageId ≠ iid) →
      ((saveNoteImages st nid).noteImages.filter
        (fun ni => ni.noteId = nid ∧ ni.isDeleted = false ∧
          ni.imageId = iid)).length = 1) ∧
    (∀ ni ∈ st.noteImages, ni.noteId = nid → ni.isDeleted = false →
      ni.imageId ∉ foundImageIds note →
      ({ ni with isDeleted := true } : NoteImage) ∈
        (saveNoteImages st nid).noteImages) ∧
    (∀ ni ∈ st.noteImages, ni.noteId = nid → ni.isDeleted = false →
      ni.imageId ∈ foundImageIds note →
      ni ∈ (saveNoteImages st nid).noteImages) := by
  obtain ⟨L, himgs, hL2, hL3⟩ := saveNoteImages_images st nid note hg htext
  refine ⟨?_, ?_, ?_⟩
  · intro iid hiid hno
    have hanyfalse : (getNoteImages st nid).any
        (fun ni => ni.imageId = iid) = false := by
      apply Bool.eq_false_iff.mpr
      intro htrue
      obtain ⟨ni, hmem, h1, h2, h3⟩ := (existing_any_iff st nid iid).mp htrue
      exact hno ni hmem h1 h2 h3
    rw [himgs, List.filter_append, List.length_append]
    have horig : (st.noteImages.map (fun ni =>
        if ni.noteId = nid ∧ ni.isDeleted = false ∧
            ni.imageId ∉ foundImageIds note
        then { ni with isDeleted := true } else ni)).filter
        (fun ni => ni.noteId = nid ∧ ni.isDeleted = false ∧
          ni.imageId = iid) = [] := by
      apply List.filter_eq_nil_iff.mpr
      intro x hx
      obtain ⟨m, hm, heq⟩ := List.mem_map.mp hx
      simp only [decide_eq_true_eq]
      rintro ⟨p1, p2, p3⟩
      by_cases hc : m.noteId = nid ∧ m.isDeleted = false ∧
          m.imageId ∉ foundImageIds note
      · rw [if_pos hc] at heq
        rw [← heq] at p2
        simp at p2
      · rw [if_neg hc] at heq
        subst heq
        exact hno m hm p1 p2 p3
    rw [horig]
    have hfL : L.filter (fun ni => ni.noteId = nid ∧ ni.isDeleted = false ∧
        ni.imageId = iid) = L.filter (fun ni => ni.imageId = iid) := by
      apply List.filter_congr
      intro x hx
      have h3 := hL3 x hx
      simp [h3.1, h3.2]
    rw [hfL]
    have hc1 : (L.filter (fun ni => ni.imageId = iid)).length =
        List.countP (fun ni => decide (ni.imageId = iid)) L :=
      (List.countP_eq_length_filter _ _).symm
    have hc2 : List.countP (fun ni : NoteImage => decide (ni.imageId = iid)) L =
        List.countP (fun s => decide (s = iid)) (L.map (fun x => x.imageId)) :=
      (List.countP_map (fun s => decide (s = iid))
        (fun x : NoteImage => x.imageId) L).symm
    rw [List.length_nil, hc1, hc2, hL2, List.countP_eq_length_filter]
    have hmemF : iid ∈ (foundImageIds note).filter
        (fun j => (getNoteImages st nid).any (fun ni => ni.imageId = j) = false) :=
      List.mem_filter.mpr ⟨hiid, by simp [hanyfalse]⟩
    rw [filter_eq_singleton_length _ iid (hnodup.filter _) hmemF]
  · intro ni hni h1 h2 h3
    rw [himgs]
    apply List.mem_append_left
    have heq : (if ni.noteId = nid ∧ ni.isDeleted = false ∧
        ni.imageId ∉ foundImageIds note
        then { ni with isDeleted := true } else ni) =
        ({ ni with isDeleted := true } : NoteImage) := if_pos ⟨h1, h2, h3⟩
    rw [← heq]
    exact List.mem_map_of_mem _ hni
  · intro ni hni h1 h2 h3
    rw [himgs]
    apply List.mem_append_left
    have heq : (if ni.noteId = nid ∧ ni.isDeleted = false ∧
        ni.imageId ∉ foundImageIds note
        then { ni with isDeleted := true } else ni) = ni :=
      if_neg (fun hc => hc.2.2 h3)
    rw [← heq]
    exact List.mem_map_of_mem _ hni

/-- Text note whose content references the same image twice (for the C7
counterexample). -/
def exNoteC7 : Note :=
  { noteId := "n1", title := some "t",
    content := some "src=\"/api/images/abc/x\" src=\"/api/images/abc/x\"",
    type := "text", mime := "text/html", isProtected := JsVal.b false,
    isDeleted := false, dateCreated := 0, dateModified := 0, labels := [] }

/-- Store holding `exNoteC7` and no tracking records. -/
def exStateC7 : State :=
  { notes := [exNoteC7], branches := [], revisions := [], noteImages := [],
    reorderLog := [], nextId := 0, writes := 0 }

/-- Counterexample to C7 as stated: the identifier `abc` is found in the
text note's content and has no existing tracking record, yet the tracker
creates two records for it — one per occurrence — not exactly one, because
the existence check runs against the pre-loop snapshot of the table. -/
theorem saveNoteImages_duplicate_counterexample :
    ("abc" ∈ foundImageIds exNoteC7 ∧ exNoteC7.type = "text" ∧
      exStateC7.getNote "n1" = some exNoteC7 ∧ exStateC7.noteImages = []) ∧
    ((saveNoteImages exStateC7 "n1").noteImages.filter
      (fun ni => ni.noteId = "n1" ∧ ni.isDeleted = false ∧
        ni.imageId = "abc")).length = 2 ∧
    ¬ ((saveNoteImages exStateC7 "n1").noteImages.filter
      (fun ni => ni.noteId = "n1" ∧ ni.isDeleted = false ∧
        ni.imageId = "abc")).length = 1 := by decide

/-- Text note referencing images `xyz` and `kept` once each (for the C7
witness). -/
def exNoteW7 : Note :=
  { noteId := "n1", title := some "t",
    content := some "src=\"/api/images/xyz/a\" src=\"/api/images/kept/b\"",
    type := "text", mime := "text/html", isProtected := JsVal.b false,
    isDeleted := false, dateCreated := 0, dateModified := 0, labels := [] }

/-- Store for the C7 witness: a record for the still-present `kept` and one
for the no-longer-present `gone`. -/
def exStateW7 : State :=
  { notes := [exNoteW7], branches := [], revisions := [],
    noteImages := [
      { noteImageId := "i1", noteId := "n1", imageId := "kept",
        isDeleted := false },
      { noteImageId := "i2", noteId := "n1", imageId := "gone",
        isDeleted := false }],
    reorderLog := [], nextId := 0, writes := 0 }

/-- Witness for the amended C7 at a concrete store. -/
theorem saveNoteImages_reconciles_witness :
    (exStateW7.getNote "n1" = some exNoteW7 ∧ exNoteW7.type = "text" ∧
      (foundImageIds exNoteW7).Nodup) ∧
    ((∀ iid ∈ foundImageIds exNoteW7,
      (∀ ni ∈ exStateW7.noteImages, ni.noteId = "n1" → ni.isDeleted = false →
        ni.imageId ≠ iid) →
      ((saveNoteImages exStateW7 "n1").noteImages.filter
        (fun ni => ni.noteId = "n1" ∧ ni.isDeleted = false ∧
          ni.imageId = iid)).length = 1) ∧
    (∀ ni ∈ exStateW7.noteImages, ni.noteId = "n1" → ni.isDeleted = false →
      ni.imageId ∉ foundImageIds exNoteW7 →
      ({ ni with isDeleted := true } : NoteImage) ∈
        (saveNoteImages exStateW7 "n1").noteImages) ∧
    (∀ ni ∈ exStateW7.noteImages, ni.noteId = "n1" → ni.isDeleted = false →
      ni.imageId ∈ foundImageIds exNoteW7 →
      ni ∈ (saveNoteImages exStateW7 "n1").noteImages)) :=
  ⟨⟨by decide, by decide, by decide⟩,
    saveNoteImages_reconciles exStateW7 "n1" exNoteW7
      (by decide) (by decide) (by decide)⟩
